import Mathlib

/-!
Shallow embedding of the TODO-scanning tool in `src/main.rs` (a Rust program
that scans a git repository for lines containing TODO markers, attributes them
via blame, groups them by commit / tag / author and prints a tree).

Modelling conventions:
* Strings are Lean `String`s; character-level work happens on `String.data`
  (`List Char`).  The Rust code only treats ASCII specially (word boundaries,
  lower-casing, byte slicing), so ASCII-faithful char-level modelling is used:
  `Char.toLower`, `Char.isAlphanum` agree with the Rust behaviour on ASCII.
* `DateTime<Utc>` values are modelled by their `timestamp_nanos` value as an
  `Int`; an attributed commit contributes `seconds * 1000000000`, exactly as
  `DateTime::from_utc(NaiveDateTime::from_timestamp(secs, 0))` followed by
  `timestamp_nanos` does.  `Utc::now()` at scan time is a parameter `now`.
* `HashMap` accumulation (`entry(..).or_insert_with(..)`) is modelled by
  association lists updated in place (`updAssoc`); lookups test key equality
  exactly like `HashMap::get`.  Iteration-order nondeterminism of `HashMap`
  is irrelevant to the theorems below, which are about sorted orders and
  per-key contents.
* A Rust panic (`&s[..7]` on a short string, `.unwrap()`) is modelled by
  `Option`: `none` means the process panics.
* Terminal colouring by the `colored` crate is modelled as enabled: `.red()`
  wraps the text in the ANSI escapes `"\x1b[31m"` / `"\x1b[0m"`.
-/

namespace TodoScan

/-- Word characters for the regex `\b` word boundary (ASCII fragment of the
Unicode word class used by the `regex` crate): alphanumerics and `_`. -/
def isWordChar (c : Char) : Bool := c.isAlphanum || c = '_'

/-- Case-insensitive comparison of an optional character with a lower-case
letter; `none` (no character) never matches. -/
def lowEq : Option Char → Char → Bool
  | some c, d => c.toLower = d
  | none, _ => false

/-- The character position is a valid right word boundary: either end of input
or a non-word character. -/
def nonWordOpt : Option Char → Bool
  | none => true
  | some c => !isWordChar c

/-- The list `cs` starts with the case-insensitive whole word `todo`
(pattern `(?i)\bTODO\b` of `TODO_PATTERN`, src/main.rs line 17): the previous
character (tracked by `prevIsWord`) is not a word character, the next four
characters case-fold to `t`,`o`,`d`,`o`, and the character after them (if any)
is not a word character. -/
def isTodoHere (prevIsWord : Bool) (cs : List Char) : Bool :=
  !prevIsWord
    && lowEq cs.head? 't'
    && lowEq (cs.drop 1).head? 'o'
    && lowEq (cs.drop 2).head? 'd'
    && lowEq (cs.drop 3).head? 'o'
    && nonWordOpt (cs.drop 4).head?

/-- Leftmost-match search for the whole word `todo`, returning the characters
after the matched marker.  This is where the regex engine's leftmost match of
`TODO_PATTERN` starts; the rest of the pattern (optional tag list, optional
separator, lazy message capture anchored at `$`) matches any remainder of a
newline-free line, so `TODO_PATTERN` matches a line iff this search succeeds. -/
def findTodoSuffix (prevIsWord : Bool) : List Char → Option (List Char)
  | [] => none
  | c :: rest =>
    if isTodoHere prevIsWord (c :: rest) then some (rest.drop 3)
    else findTodoSuffix (isWordChar c) rest

/-- ANSI escape prefix produced by `colored`'s `.red()`. -/
def redStart : String := "\x1b[31m"

/-- ANSI escape suffix produced by `colored`'s `.red()`. -/
def redEnd : String := "\x1b[0m"

/-- One-pass worker for `highlight_todo` (src/main.rs lines 30-52): scans the
line, copying characters, and wraps every case-insensitive whole-word `TODO`
occurrence in the red escapes.  `k` counts the characters still to be emitted
inside the current match (the regex matches are 4 characters long and cannot
overlap because of the word boundaries, exactly like `find_iter`); `prev`
records whether the previous character was a word character. -/
def hlGo (k : Nat) (prev : Bool) (cs : List Char) : List Char :=
  match k, cs with
  | 0, [] => []
  | _ + 1, [] => redEnd.data
  | 0, c :: rest =>
    if isTodoHere prev (c :: rest) then redStart.data ++ c :: hlGo 3 true rest
    else c :: hlGo 0 (isWordChar c) rest
  | 1, c :: rest => c :: (redEnd.data ++ hlGo 0 true rest)
  | Nat.succ (Nat.succ k2), c :: rest => c :: hlGo (Nat.succ k2) true rest

/-- `highlight_todo` (src/main.rs lines 30-52): the display copy of the line
with every whole-word `TODO` wrapped in red ANSI escapes. -/
def highlight_todo (line : String) : String := String.mk (hlGo 0 false line.data)

/-- Rust `str::split(',')` on a character list: splits at every comma; the
empty input yields one empty field, like Rust. -/
def splitCommaAux (cur : List Char) : List Char → List (List Char)
  | [] => [cur.reverse]
  | c :: rest =>
    if c = ',' then cur.reverse :: splitCommaAux [] rest
    else splitCommaAux (c :: cur) rest

/-- Rust `str::trim` (ASCII whitespace fragment): strip leading and trailing
whitespace characters. -/
def trimChars (cs : List Char) : List Char :=
  ((cs.dropWhile Char.isWhitespace).reverse.dropWhile Char.isWhitespace).reverse

/-- Tag-list extraction from the characters following the matched marker,
modelling capture group 1 of `TODO_PATTERN`, `(?:\((.*?)\))?`: the group
participates only when `(` immediately follows the marker and a closing `)`
occurs later (lazy `.*?` stops at the first `)`); the captured text is split
on commas and each piece is trimmed (src/main.rs lines 74-79).  Otherwise the
optional group is skipped and the tag vector is empty. -/
def extractTags (cs : List Char) : List String :=
  match cs with
  | '(' :: rest =>
    if rest.contains ')' then
      (splitCommaAux [] (rest.takeWhile (fun c => c != ')'))).map
        (fun l => String.mk (trimChars l))
    else []
  | _ => []

/-- `parse_todo` (src/main.rs lines 69-86).  When `TODO_PATTERN` does not
match the line (no case-insensitive whole-word `todo`), the Rust `map_or_else`
fallback returns `(vec![], line.to_string())`.  When it matches, the tags come
from capture group 1 and the second component is `highlight_todo(line)` — the
message capture group 2 of the pattern is never read. -/
def parse_todo (line : String) : List String × String :=
  match findTodoSuffix false line.data with
  | none => ([], line)
  | some suffix => (extractTags suffix, highlight_todo line)

/-- Rust `str::contains` on character lists: `startsWithChars pat l` is true
iff `pat` is a prefix of `l`. -/
def startsWithChars : List Char → List Char → Bool
  | [], _ => true
  | _ :: _, [] => false
  | p :: ps, c :: cs => p = c && startsWithChars ps cs

/-- Rust `str::contains`: `pat` occurs as a contiguous subsequence. -/
def containsSeq (pat : List Char) : List Char → Bool
  | [] => startsWithChars pat []
  | c :: rest => startsWithChars pat (c :: rest) || containsSeq pat rest

/-- Rust `String::to_lowercase` (ASCII fragment, character by character). -/
def lowerStr (s : String) : String := String.mk (s.data.map Char.toLower)

/-- The scan gate of `get_todos` (src/main.rs line 168):
`line.to_lowercase().contains("todo")` — a substring test, with no word
boundaries. -/
def containsTodoSub (line : String) : Bool :=
  containsSeq "todo".data (lowerStr line).data

/-- Commit summary exposed by the blame query (git2 `Commit`): hash, optional
author name and commit timestamp in seconds since the epoch. -/
structure CommitRec where
  hash : String
  authorName : Option String
  timeSecs : Int
deriving DecidableEq

/-- The inner loop of the line→commit map construction (src/main.rs lines
161-164): insert `n` consecutive line numbers starting at `cur`, all mapped to
commit `c`. -/
def insertRun (c : CommitRec) (cur : Nat) : Nat → List (Nat × CommitRec)
  | 0 => []
  | Nat.succ m => (cur, c) :: insertRun c (cur + 1) m

/-- The outer loop over blame hunks (src/main.rs lines 156-165), starting at
`cur`: each `(commit, run_length)` hunk consumes `run_length` consecutive line
numbers.  Keys are strictly increasing, so the association list faithfully
models the `HashMap`. -/
def buildGo (cur : Nat) : List (CommitRec × Nat) → List (Nat × CommitRec)
  | [] => []
  | (c, n) :: rest => insertRun c cur n ++ buildGo (cur + n) rest

/-- `line_to_commit` map construction (src/main.rs lines 156-165):
line numbers start at 1. -/
def buildLineToCommit (hunks : List (CommitRec × Nat)) : List (Nat × CommitRec) :=
  buildGo 1 hunks

/-- The `Todo` struct (src/main.rs lines 19-28).  `commit_date` is the
`timestamp_nanos` view of the `DateTime<Utc>` field. -/
structure Todo where
  file_path : String
  line : Nat
  tags : List String
  statement : String
  author : String
  commit_hash : String
  commit_date : Int
deriving DecidableEq

/-- Per-line body of the scan loop of `get_todos` (src/main.rs lines 167-199):
the substring gate, the parse, the empty-statement skip, then attribution via
the line→commit map.  An attributed line takes the commit's author name
(`"Unknown"` when absent), full hash, and time in seconds scaled to
nanoseconds; an unattributed line takes empty author, empty hash and the scan
instant `nowNanos`.  `idx` is the 0-based line index. -/
def processLine (m : List (Nat × CommitRec)) (path : String) (nowNanos : Int)
    (idx : Nat) (line : String) : Option Todo :=
  if containsTodoSub line then
    if (parse_todo line).2 = "" then none
    else some (match List.lookup (idx + 1) m with
      | some c =>
        { file_path := path, line := idx + 1, tags := (parse_todo line).1,
          statement := (parse_todo line).2,
          author := c.authorName.getD "Unknown", commit_hash := c.hash,
          commit_date := c.timeSecs * 1000000000 }
      | none =>
        { file_path := path, line := idx + 1, tags := (parse_todo line).1,
          statement := (parse_todo line).2,
          author := "", commit_hash := "", commit_date := nowNanos })
  else none

/-- Scan of one candidate file (src/main.rs lines 137-199): build the blame
map from the hunks, then scan the lines in order. -/
def processFile (path : String) (lines : List String)
    (hunks : List (CommitRec × Nat)) (nowNanos : Int) : List Todo :=
  lines.enum.filterMap (fun p => processLine (buildLineToCommit hunks) path nowNanos p.1 p.2)

/-- Grouping key (src/main.rs lines 205-209): full-precision timestamp plus
the rendered display label. -/
structure Key where
  timestamp_nanos : Int
  display : String
deriving DecidableEq

/-- The slice `&todo.commit_hash[..7]` (src/main.rs line 215): panics —
`none` — unless the hash has at least 7 characters (the hashes produced by
git are 40 hex characters, but unattributed lines carry `""`). -/
def shortHash (s : String) : Option String :=
  if 7 ≤ s.data.length then some (String.mk (s.data.take 7)) else none

/-- Modelled from the spec: the human-readable relative-time phrase produced
by the external `chrono-humanize` crate (`HumanTime::from(date)` rendered at
the current instant), which is absent from src/.  Only its dependence on the
pair (scan instant, commit time) matters for the theorems; the tiers here are
a simplified rendering of the library's buckets. -/
def humanTime (nowNanos dateNanos : Int) : String :=
  let d := (nowNanos - dateNanos) / 1000000000
  if d < 1 then "now"
  else if d < 60 then toString d ++ " seconds ago"
  else if d < 3600 then toString (d / 60) ++ " minutes ago"
  else if d < 86400 then toString (d / 3600) ++ " hours ago"
  else toString (d / 86400) ++ " days ago"

/-- Key construction (src/main.rs lines 215-229) from the commit timestamp
and the 7-character hash prefix: the display label is
`"[{short_hash}/{human_time}]"`, the sort key the full-precision timestamp. -/
def decorate (now : Int) (ck : Int × String) : Key :=
  { timestamp_nanos := ck.1
    display := "[" ++ ck.2 ++ "/" ++ humanTime now ck.1 ++ "]" }

/-- `HashMap::entry(k).or_insert_with(default)` followed by an update `f`,
modelled on an association list: update the entry for `k` in place, or append
a fresh entry `(k, f d)`. -/
def updAssoc {κ ν : Type} [DecidableEq κ] (k : κ) (f : ν → ν) (d : ν) :
    List (κ × ν) → List (κ × ν)
  | [] => [(k, f d)]
  | e :: rest => if e.1 = k then (k, f e.2) :: rest else e :: updAssoc k f d rest

/-- Author buckets: author → discovered todos in insertion order. -/
abbrev AuthorMap := List (String × List Todo)

/-- Tag buckets: tag → author buckets. -/
abbrev TagMap := List (String × AuthorMap)

/-- The aggregated structure handed to the reporter: group key → tag buckets
(src/main.rs line 211, with `HashMap`s as association lists). -/
abbrev Grouped := List (Key × TagMap)

instance : DecidableEq TagMap := inferInstance

instance : DecidableEq Grouped := fun a b => instDecidableEqList a b

/-- Sentinel substitution for untagged todos (src/main.rs lines 220-224). -/
def normTags (tags : List String) : List String :=
  if tags.isEmpty then ["__no_tag__"] else tags

/-- The tag fan-out loop for one todo (src/main.rs lines 231-240): for each
tag (or the sentinel), push the todo into the `(key, tag, author)` leaf.
Generic in the key type so the same insertion describes the decorated and the
undecorated grouping. -/
def insertTodo {κ : Type} [DecidableEq κ] (key : κ) (t : Todo)
    (acc : List (κ × TagMap)) : List (κ × TagMap) :=
  (normTags t.tags).foldl
    (fun a tag =>
      updAssoc key (updAssoc tag (updAssoc t.author (fun l => l ++ [t]) []) []) [] a)
    acc

/-- One iteration of the `group_todos` loop (src/main.rs lines 214-241): the
hash slice first (panic — `none` — on a short hash), then the key and the tag
fan-out. -/
def groupStep (now : Int) (acc : Grouped) (t : Todo) : Option Grouped :=
  match shortHash t.commit_hash with
  | none => none
  | some sh => some (insertTodo (decorate now (t.commit_date, sh)) t acc)

/-- `group_todos` (src/main.rs lines 211-244), parametrised by the scan
instant used for the human-readable time phrases. -/
def group_todos (todos : List Todo) (now : Int) : Option Grouped :=
  todos.foldlM (groupStep now) []

/-- Ghost variant of `group_todos` used only in proofs: identical fan-out, but
keyed by the undecorated pair (timestamp, hash prefix), with no dependence on
the scan instant. -/
def coreStep (acc : List ((Int × String) × TagMap)) (t : Todo) :
    Option (List ((Int × String) × TagMap)) :=
  match shortHash t.commit_hash with
  | none => none
  | some sh => some (insertTodo (t.commit_date, sh) t acc)

/-- Ghost grouping by commit identity only (proof device for the idempotence
claim). -/
def groupCore (todos : List Todo) : Option (List ((Int × String) × TagMap)) :=
  todos.foldlM coreStep []

/-- Byte-lexicographic comparison of Rust `str` (`Ord` on `&str`), expressed
on code points — identical to UTF-8 byte order. -/
def lexLe : List Char → List Char → Bool
  | [], _ => true
  | _ :: _, [] => false
  | a :: as, b :: bs =>
    if a.toNat < b.toNat then true
    else if a.toNat = b.toNat then lexLe as bs else false

/-- The tag comparator of `print_grouped_todos` (src/main.rs line 257):
`sort_by_key(|&x| (x == "__no_tag__", x))` — Rust tuple order, with
`false < true` on the first component. -/
def tagLe (a b : String) : Bool :=
  let ka := a == "__no_tag__"
  let kb := b == "__no_tag__"
  if ka = kb then lexLe a.data b.data
  else if ka then false else true

/-- The group-key comparator of `print_grouped_todos` (src/main.rs line 250):
ascending `timestamp_nanos`. -/
def keyLe (a b : Key) : Bool :=
  decide (a.timestamp_nanos ≤ b.timestamp_nanos)

/-- Stable insertion of `x` into a sorted list: `x` goes after every element
strictly below it and before the first element not below it. -/
def insertSorted {α : Type} (le : α → α → Bool) (x : α) : List α → List α
  | [] => [x]
  | y :: ys =>
    if le y x && !le x y then y :: insertSorted le x ys
    else x :: y :: ys

/-- Stable comparator sort, modelling Rust's stable `slice::sort_by` /
`sort_by_key`: same comparator, same stable observable behaviour. -/
def stableSort {α : Type} (le : α → α → Bool) : List α → List α
  | [] => []
  | x :: xs => insertSorted le x (stableSort le xs)

/-- The group-key ordering handed to the reporter (src/main.rs lines
249-250). -/
def sortKeys (g : Grouped) : List Key := stableSort keyLe (g.map Prod.fst)

/-- The tag ordering within one group (src/main.rs lines 256-257). -/
def sortTags (tags : List String) : List String := stableSort tagLe tags

/-- One candidate file of the diff: repository-relative path, its lines, and
its blame hunks.  This is the per-file data `get_todos` consumes from git2. -/
structure FileData where
  path : String
  lines : List String
  hunks : List (CommitRec × Nat)
deriving DecidableEq

/-- The file loop of `get_todos` (src/main.rs lines 125-200): concatenate the
per-file results in file order. -/
def getTodosFiles (files : List FileData) (now : Int) : List Todo :=
  match files with
  | [] => []
  | f :: rest => processFile f.path f.lines f.hunks now ++ getTodosFiles rest now

/-- `get_todos` (src/main.rs lines 113-203) at the level of the diff result:
`diff = none` models `get_diff_with_main` failing (reference branch `main`
absent), in which case an error diagnostic is printed (the boolean) and the
empty todo list is returned; otherwise every file of the diff is scanned. -/
def get_todos (diff : Option (List FileData)) (now : Int) : List Todo × Bool :=
  match diff with
  | none => ([], true)
  | some files => (getTodosFiles files now, false)

/-- `main` (src/main.rs lines 313-331) as an exit-status function:
`some code` is a normal exit with that status, `none` a panic.  `repoOk`
models `Repository::open` succeeding; a failed open exits with status 1;
an empty result prints the "No TODOs found" message and exits 0; otherwise
the todos are grouped (the hash slice may panic) and printed, exiting 0. -/
def mainResult (repoOk : Bool) (diff : Option (List FileData)) (now : Int) :
    Option Nat :=
  if repoOk then
    let r := get_todos diff now
    if r.1.isEmpty then some 0
    else
      match group_todos r.1 now with
      | none => none
      | some _ => some 0
  else some 1

/-- Full pipeline from a diff's files to the aggregated tree (scan then
group), as exercised by a normal run. -/
def runPipeline (files : List FileData) (now : Int) : Option Grouped :=
  group_todos (getTodosFiles files now) now

/-- Forget the display labels of the group keys, keeping the numeric sort
keys, the grouping structure and the leaf contents. -/
def stripDisplay (g : Grouped) : List (Int × TagMap) :=
  g.map (fun e => (e.1.timestamp_nanos, e.2))

/-- Number of `(group key, tag, author)` leaf lists of the aggregated tree in
which a given todo occurs (each leaf list counted once, however many copies of
the todo it holds). -/
def leavesContaining (g : Grouped) (t : Todo) : Nat :=
  (g.map (fun e =>
    (e.2.map (fun tagE =>
      (tagE.2.map (fun aE => if t ∈ aE.2 then 1 else 0)).sum)).sum)).sum

/-- Map a function over the keys of an association list (proof device). -/
def mapFst {κ κ' ν : Type} (f : κ → κ') (l : List (κ × ν)) : List (κ' × ν) :=
  l.map (fun e => (f e.1, e.2))

/-- Relation between the annotations produced by two scans of the same
repository state at different instants: corresponding annotations are either
identical (attributed lines) or both carry the empty commit hash
(unattributed lines, whose `commit_date` is the respective scan instant). -/
def RelTodo (t1 t2 : Todo) : Prop :=
  t1 = t2 ∨ (t1.commit_hash = "" ∧ t2.commit_hash = "")

/-! ### Generic lemmas about the stable comparator sort -/

theorem insertSorted_perm {α : Type} (le : α → α → Bool) (x : α) (l : List α) :
    List.Perm (insertSorted le x l) (x :: l) := by
  induction l with
  | nil => exact List.Perm.refl _
  | cons y ys ih =>
    unfold insertSorted
    split
    · exact (ih.cons y).trans (List.Perm.swap x y ys)
    · exact List.Perm.refl _

theorem stableSort_perm {α : Type} (le : α → α → Bool) (l : List α) :
    List.Perm (stableSort le l) l := by
  induction l with
  | nil => exact List.Perm.refl _
  | cons x xs ih =>
    exact (insertSorted_perm le x (stableSort le xs)).trans (ih.cons x)

theorem insertSorted_pairwise {α : Type} (le : α → α → Bool)
    (htot : ∀ a b, le a b = true ∨ le b a = true)
    (htrans : ∀ a b c, le a b = true → le b c = true → le a c = true)
    (x : α) (l : List α) (hl : l.Pairwise (fun a b => le a b = true)) :
    (insertSorted le x l).Pairwise (fun a b => le a b = true) := by
  induction l with
  | nil => simp [insertSorted]
  | cons y ys ih =>
    rw [List.pairwise_cons] at hl
    unfold insertSorted
    split
    · rename_i hcond
      rw [Bool.and_eq_true, Bool.not_eq_eq_eq_not, Bool.not_true] at hcond
      rw [List.pairwise_cons]
      refine ⟨?_, ih hl.2⟩
      intro z hz
      rcases List.mem_cons.mp ((insertSorted_perm le x ys).mem_iff.mp hz) with h | h
      · subst h; exact hcond.1
      · exact hl.1 z h
    · rename_i hcond
      rw [Bool.and_eq_true, Bool.not_eq_eq_eq_not, Bool.not_true] at hcond
      have hxy : le x y = true := by
        rcases htot x y with h | h
        · exact h
        · cases h3 : le x y
          · exact absurd ⟨h, h3⟩ hcond
          · rfl
      rw [List.pairwise_cons]
      refine ⟨?_, List.pairwise_cons.mpr hl⟩
      intro z hz
      rcases List.mem_cons.mp hz with h | h
      · subst h; exact hxy
      · exact htrans x y z hxy (hl.1 z h)

theorem stableSort_pairwise {α : Type} (le : α → α → Bool)
    (htot : ∀ a b, le a b = true ∨ le b a = true)
    (htrans : ∀ a b c, le a b = true → le b c = true → le a c = true)
    (l : List α) : (stableSort le l).Pairwise (fun a b => le a b = true) := by
  induction l with
  | nil => simp [stableSort]
  | cons x xs ih => exact insertSorted_pairwise le htot htrans x _ ih

/-! ### The two comparators are total preorders -/

theorem lexLe_total : ∀ as bs : List Char, lexLe as bs = true ∨ lexLe bs as = true := by
  intro as
  induction as with
  | nil => intro bs; left; rfl
  | cons a as ih =>
    intro bs
    cases bs with
    | nil => right; rfl
    | cons b bs =>
      rcases Nat.lt_trichotomy a.toNat b.toNat with h | h | h
      · left; simp [lexLe, h]
      · rcases ih bs with h2 | h2
        · left; simp [lexLe, h, h2, Nat.lt_irrefl]
        · right; simp [lexLe, h, h2, Nat.lt_irrefl]
      · right; simp [lexLe, h]

theorem lexLe_trans : ∀ as bs cs : List Char,
    lexLe as bs = true → lexLe bs cs = true → lexLe as cs = true := by
  intro as
  induction as with
  | nil => intro bs cs _ _; rfl
  | cons a as ih =>
    intro bs cs h1 h2
    cases bs with
    | nil => simp [lexLe] at h1
    | cons b bs =>
      cases cs with
      | nil => simp [lexLe] at h2
      | cons c cs =>
        simp only [lexLe] at h1 h2 ⊢
        by_cases hab : a.toNat < b.toNat
        · by_cases hbc : b.toNat < c.toNat
          · have : a.toNat < c.toNat := Nat.lt_trans hab hbc
            simp [this]
          · simp [hbc] at h2
            by_cases hbc2 : b.toNat = c.toNat
            · have : a.toNat < c.toNat := hbc2 ▸ hab
              simp [this]
            · simp [hbc2] at h2
        · simp [hab] at h1
          by_cases hab2 : a.toNat = b.toNat
          · by_cases hbc : b.toNat < c.toNat
            · have : a.toNat < c.toNat := hab2 ▸ hbc
              simp [this]
            · simp [hbc] at h2
              by_cases hbc2 : b.toNat = c.toNat
              · have hac : a.toNat = c.toNat := hab2.trans hbc2
                have hlt : ¬ a.toNat < c.toNat := by omega
                simp [hab2, hbc2] at h1 h2
                simp [hlt, hac]
                exact ih bs cs h1 h2
              · simp [hbc2] at h2
          · simp [hab2] at h1

theorem lexLe_refl : ∀ as : List Char, lexLe as as = true := by
  intro as
  induction as with
  | nil => rfl
  | cons a as ih => simp [lexLe, Nat.lt_irrefl, ih]

theorem tagLe_total : ∀ a b : String, tagLe a b = true ∨ tagLe b a = true := by
  intro a b
  by_cases ha : a = "__no_tag__" <;> by_cases hb : b = "__no_tag__"
  · left; simp [tagLe, ha, hb, lexLe_refl]
  · right; simp [tagLe, ha, hb]
  · left; simp [tagLe, ha, hb]
  · rcases lexLe_total a.data b.data with h | h
    · left; simp [tagLe, ha, hb, h]
    · right; simp [tagLe, ha, hb, h]

theorem tagLe_trans : ∀ a b c : String,
    tagLe a b = true → tagLe b c = true → tagLe a c = true := by
  intro a b c h1 h2
  by_cases ha : a = "__no_tag__" <;> by_cases hb : b = "__no_tag__" <;>
    by_cases hc : c = "__no_tag__"
  · simp [tagLe, ha, hc, lexLe_refl]
  · simp [tagLe, hb, hc] at h2
  · simp [tagLe, ha, hb] at h1
  · simp [tagLe, ha, hb] at h1
  · simp [tagLe, ha, hc]
  · simp [tagLe, hb, hc] at h2
  · simp [tagLe, ha, hc]
  · simp [tagLe, ha, hb, hc] at h1 h2 ⊢
    exact lexLe_trans _ _ _ h1 h2

theorem keyLe_total : ∀ a b : Key, keyLe a b = true ∨ keyLe b a = true := by
  intro a b
  simp only [keyLe, decide_eq_true_eq]
  exact Int.le_total _ _

theorem keyLe_trans : ∀ a b c : Key,
    keyLe a b = true → keyLe b c = true → keyLe a c = true := by
  intro a b c h1 h2
  simp only [keyLe, decide_eq_true_eq] at h1 h2 ⊢
  exact le_trans h1 h2

/-! ### C10: group-key ordering -/

/-- C10: the group keys handed to the reporter are a permutation of the
aggregated tree's keys, sorted ascending by the full-precision
`timestamp_nanos` — chronological, oldest first, independent of the lexical
order of the display labels. -/
theorem c10_groupkey_order (g : Grouped) :
    List.Perm (sortKeys g) (g.map Prod.fst) ∧
      (sortKeys g).Pairwise (fun a b : Key => a.timestamp_nanos ≤ b.timestamp_nanos) := by
  constructor
  · exact stableSort_perm keyLe (g.map Prod.fst)
  · have h := stableSort_pairwise keyLe keyLe_total keyLe_trans (g.map Prod.fst)
    exact h.imp (fun hab => by
      simpa only [keyLe, decide_eq_true_eq] using hab)

/-! ### C3: tag ordering within a group -/

/-- C3 counterexample: the tag comparator `(x == "__no_tag__", x)` sorts the
sentinel tag `__no_tag__` *last* (Rust `bool` orders `false < true`), not
first as claimed. -/
theorem c3_counterexample :
    sortTags ["__no_tag__", "a"] = ["a", "__no_tag__"] := by decide

/-- C3 amended: within every group the named tags come first in ascending
lexical order, and the sentinel tag `__no_tag__` always sorts last (after
every named tag), the opposite end from the claimed order. -/
theorem c3_amended (tags : List String) :
    List.Perm (sortTags tags) tags ∧
      (sortTags tags).Pairwise (fun a b =>
        (a = "__no_tag__" → b = "__no_tag__") ∧
        (a ≠ "__no_tag__" → b ≠ "__no_tag__" → lexLe a.data b.data = true)) := by
  constructor
  · exact stableSort_perm tagLe tags
  · have h := stableSort_pairwise tagLe tagLe_total tagLe_trans tags
    refine h.imp (fun hab => ?_)
    rename_i a b
    simp only [tagLe] at hab
    constructor
    · intro ha
      by_cases hb : b = "__no_tag__"
      · exact hb
      · simp [ha, hb] at hab
    · intro ha hb
      simpa [ha, hb] using hab

/-! ### C9: line-attribution map construction -/

theorem insertRun_eq (c : CommitRec) (n : Nat) : ∀ cur : Nat,
    insertRun c cur n = (List.range' cur n).zip (List.replicate n c) := by
  induction n with
  | zero => intro cur; rfl
  | succ m ih =>
    intro cur
    rw [List.range'_succ]
    simp only [insertRun, List.replicate_succ, List.zip_cons_cons]
    rw [ih (cur + 1)]

theorem buildGo_eq (hunks : List (CommitRec × Nat)) : ∀ cur : Nat,
    buildGo cur hunks =
      (List.range' cur ((hunks.map Prod.snd).sum)).zip
        ((hunks.map (fun p => List.replicate p.2 p.1)).flatten) := by
  induction hunks with
  | nil => intro cur; rfl
  | cons p rest ih =>
    intro cur
    obtain ⟨c, n⟩ := p
    simp only [buildGo, List.map_cons, List.sum_cons, List.flatten_cons]
    rw [insertRun_eq, ih (cur + n)]
    rw [← List.zip_append (by simp)]
    congr 1
    have h := List.range'_append cur n ((rest.map Prod.snd).sum) 1
    rw [Nat.one_mul] at h
    rw [h, Nat.add_comm]

/-- C9: expanding the blame hunks assigns line numbers sequentially starting
at 1, consuming `run_length` lines per record in order (the map is exactly
`[1..N]` zipped with the records, each repeated its run length), and produces
exactly N = sum of the run lengths entries. -/
theorem c9_attribution_map (hunks : List (CommitRec × Nat)) :
    buildLineToCommit hunks =
      (List.range' 1 ((hunks.map Prod.snd).sum)).zip
        ((hunks.map (fun p => List.replicate p.2 p.1)).flatten) ∧
      (buildLineToCommit hunks).length = (hunks.map Prod.snd).sum := by
  refine ⟨buildGo_eq hunks 1, ?_⟩
  have hflat : ((hunks.map (fun p => List.replicate p.2 p.1)).flatten).length =
      (hunks.map Prod.snd).sum := by
    rw [List.length_flatten]
    simp [Function.comp_def]
  rw [buildLineToCommit, buildGo_eq hunks 1, List.length_zip, List.length_range', hflat,
    Nat.min_self]

/-! ### C5: the 7-character hash slice panics on unattributed lines -/

/-- C5: `group_todos` slices `commit_hash[..7]`, which panics on any
annotation whose hash is shorter than 7 bytes; such annotations are reachable
— a TODO line with no blame attribution carries the empty hash — and then the
whole run panics instead of producing a grouped tree. -/
theorem c5_short_hash_slice_panics :
    (processFile "f" ["TODO: x"] [] 0).map Todo.commit_hash = [""] ∧
      group_todos (processFile "f" ["TODO: x"] [] 0) 0 = none ∧
      mainResult true (some [⟨"f", ["TODO: x"], []⟩]) 0 = none := by decide

/-! ### C6: missing reference branch -/

/-- C6 counterexample: when the diff against the reference branch fails, the
pipeline returns zero results (printing a diagnostic), but `main` then takes
the "no TODOs found" path and exits with status 0 — not the claimed non-zero
exit. -/
theorem c6_counterexample :
    get_todos none 0 = ([], true) ∧ mainResult true none 0 = some 0 := by decide

/-- C6 amended: when the named reference branch does not exist the run does
not crash — the pipeline reports zero results and prints a diagnostic — but
the process exits with status 0 (the "no TODOs found" success path), not a
non-zero status. -/
theorem c6_amended (now : Int) :
    get_todos none now = ([], true) ∧ mainResult true none now = some 0 := by
  exact ⟨rfl, rfl⟩

/-! ### C1: parsing a `TODO(a, b): message` line -/

/-- C1 counterexample: on the line `TODO(a, b): message` the parser does
produce tags `["a", "b"]`, but the message it returns is not `"message"`: the
second component of `parse_todo` is the whole line with the marker wrapped in
red escapes (the message capture group of the pattern is discarded). -/
theorem c1_counterexample :
    parse_todo "TODO(a, b): message" =
      (["a", "b"], "\x1b[31mTODO\x1b[0m(a, b): message") ∧
      (parse_todo "TODO(a, b): message").2 ≠ "message" := by decide

theorem hlGo_eq_self_of_no_todo : ∀ (cs : List Char) (b : Bool),
    findTodoSuffix b cs = none → hlGo 0 b cs = cs := by
  intro cs
  induction cs with
  | nil => intro b _; rfl
  | cons c rest ih =>
    intro b h
    unfold findTodoSuffix at h
    by_cases hc : isTodoHere b (c :: rest) = true
    · rw [if_pos hc] at h
      exact absurd h (by simp)
    · rw [if_neg hc] at h
      unfold hlGo
      rw [if_neg hc, ih (isWordChar c) h]

/-- C1 amended: for a line `TODO(a, b): message` (no further whole-word
`todo` inside the message), the parser yields tags `["a", "b"]` as claimed,
but the returned message is the entire input line with the marker wrapped in
the red display emphasis — no remainder extraction, no quote/parenthesis
stripping and no trimming is applied to it. -/
theorem c1_amended (ms : String) (h : findTodoSuffix false ms.data = none) :
    parse_todo ("TODO(a, b): " ++ ms) =
      (["a", "b"], redStart ++ "TODO" ++ redEnd ++ "(a, b): " ++ ms) := by
  have hdata : ("TODO(a, b): " ++ ms).data =
      'T' :: 'O' :: 'D' :: 'O' :: '(' :: 'a' :: ',' :: ' ' :: 'b' :: ')' :: ':' :: ' ' :: ms.data := by
    rw [String.data_append]
    rfl
  have hfind : findTodoSuffix false ("TODO(a, b): " ++ ms).data =
      some ('(' :: 'a' :: ',' :: ' ' :: 'b' :: ')' :: ':' :: ' ' :: ms.data) := by
    rw [hdata]
    rfl
  have htags : extractTags ('(' :: 'a' :: ',' :: ' ' :: 'b' :: ')' :: ':' :: ' ' :: ms.data) = ["a", "b"] := rfl
  have hnoOcc : hlGo 0 false ms.data = ms.data := hlGo_eq_self_of_no_todo ms.data false h
  have hhl : hlGo 0 false ("TODO(a, b): " ++ ms).data =
      "\x1b[31mTODO\x1b[0m(a, b): ".data ++ ms.data := by
    rw [hdata]
    calc hlGo 0 false ('T' :: 'O' :: 'D' :: 'O' :: '(' :: 'a' :: ',' :: ' ' :: 'b' :: ')' :: ':' :: ' ' :: ms.data)
        = "\x1b[31mTODO\x1b[0m(a, b): ".data ++ hlGo 0 false ms.data := rfl
      _ = "\x1b[31mTODO\x1b[0m(a, b): ".data ++ ms.data := by rw [hnoOcc]
  unfold parse_todo
  rw [hfind]
  refine Prod.ext htags ?_
  show highlight_todo ("TODO(a, b): " ++ ms) = _
  unfold highlight_todo
  rw [hhl]
  apply String.ext
  simp only [String.data_append]
  rfl

/-- C1 amended witness: a concrete message. -/
theorem c1_amended_witness :
    findTodoSuffix false "fix it".data = none ∧
      parse_todo ("TODO(a, b): " ++ "fix it") =
        (["a", "b"], redStart ++ "TODO" ++ redEnd ++ "(a, b): " ++ "fix it") :=
  ⟨by decide, c1_amended "fix it" (by decide)⟩

/-! ### C2: lines without a whole-word `todo` -/

/-- C2 counterexample: the line `autodoc` contains `todo` only inside a larger
word, yet the pipeline emits an annotation for it — the scan gate is a plain
substring test and the parser's fallback returns the whole line as the
statement. -/
theorem c2_counterexample :
    processFile "f" ["autodoc"] [] 0 =
      [{ file_path := "f", line := 1, tags := [], statement := "autodoc",
         author := "", commit_hash := "", commit_date := 0 }] := by decide

/-- C2 amended: the guarantee that holds is for the substring test, not the
whole-word test: a line that does not contain `todo` as a case-insensitive
substring yields no annotation (lines like `autodoc` do yield one). -/
theorem c2_amended (path : String) (lines : List String)
    (hunks : List (CommitRec × Nat)) (now : Int)
    (h : ∀ l ∈ lines, containsTodoSub l = false) :
    processFile path lines hunks now = [] := by
  unfold processFile
  rw [List.filterMap_eq_nil_iff]
  intro p hp
  have hl : p.2 ∈ lines := by
    have h2 : p.2 ∈ lines.enum.map Prod.snd := List.mem_map_of_mem Prod.snd hp
    rwa [List.enum_map_snd] at h2
  unfold processLine
  rw [h p.2 hl]
  simp

/-- C2 amended witness: a concrete annotation-free file. -/
theorem c2_amended_witness :
    (∀ l ∈ ["hello", "world"], containsTodoSub l = false) ∧
      processFile "f" ["hello", "world"] [] 0 = [] :=
  ⟨by decide, c2_amended "f" ["hello", "world"] [] 0 (by decide)⟩

/-! ### C4: unattributed lines -/

/-- C4 counterexample: an annotated line with no history attribution gets
`commit_time = now` as claimed, but its author is the empty string, not the
claimed sentinel `"Uncommitted"`. -/
theorem c4_counterexample :
    (processFile "f" ["TODO: x"] [] 5).map Todo.author = [""] ∧
      (processFile "f" ["TODO: x"] [] 5).map Todo.commit_date = [5] ∧
      ("" : String) ≠ "Uncommitted" := by decide

/-- C4 amended: every annotation emitted for a line with no history
attribution carries the empty string as author (the code's sentinel — not
`"Uncommitted"`), the empty string as commit hash, and the scan instant as
its commit time. -/
theorem c4_amended (path : String) (lines : List String)
    (hunks : List (CommitRec × Nat)) (now : Int) (t : Todo)
    (ht : t ∈ processFile path lines hunks now)
    (hl : List.lookup t.line (buildLineToCommit hunks) = none) :
    t.author = "" ∧ t.commit_hash = "" ∧ t.commit_date = now := by
  rw [processFile, List.mem_filterMap] at ht
  obtain ⟨p, hp, hsome⟩ := ht
  unfold processLine at hsome
  split at hsome
  · split at hsome
    · exact absurd hsome (by simp)
    · rw [Option.some.injEq] at hsome
      split at hsome
      · rename_i c heq
        exfalso
        rw [← hsome] at hl
        simp only at hl
        rw [hl] at heq
        exact Option.noConfusion heq
      · rw [← hsome]
        exact ⟨rfl, rfl, rfl⟩
  · exact absurd hsome (by simp)

/-- C4 amended witness: a concrete untracked TODO line. -/
theorem c4_amended_witness :
    ({ file_path := "f", line := 1, tags := [],
       statement := "\x1b[31mTODO\x1b[0m: x", author := "", commit_hash := "",
       commit_date := 5 } : Todo) ∈ processFile "f" ["TODO: x"] [] 5 ∧
      ({ file_path := "f", line := 1, tags := [],
         statement := "\x1b[31mTODO\x1b[0m: x", author := "", commit_hash := "",
         commit_date := 5 } : Todo).author = "" :=
  ⟨by decide,
   (c4_amended "f" ["TODO: x"] [] 5 _ (by decide) (by decide)).1⟩

/-! ### C7 counterexample: the display labels depend on the scan instant -/

/-- C7 counterexample: two runs over the identical repository state, two days
apart, produce different aggregated trees — the group-key display label
embeds a relative-time phrase rendered at the scan instant. -/
theorem c7_counterexample :
    runPipeline [⟨"f", ["TODO: x"], [(⟨"abcdefgh", some "Alice", 0⟩, 1)]⟩] 0 ≠
      runPipeline [⟨"f", ["TODO: x"], [(⟨"abcdefgh", some "Alice", 0⟩, 1)]⟩]
        172800000000000 := by decide

/-! ### C8 counterexample: duplicate tags collapse into one leaf list -/

/-- C8 counterexample: an annotation with the two tags `["x", "x"]`
(reachable from the line `TODO(x, x): m` — duplicates are allowed) is placed
in exactly one leaf list, not two; the fan-out loop hits the same
`(key, tag, author)` leaf twice. -/
theorem c8_counterexample :
    (processFile "f" ["TODO(x, x): m"] [(⟨"abcdefgh", some "alice", 0⟩, 1)] 0).map
        Todo.tags = [["x", "x"]] ∧
      (group_todos
            (processFile "f" ["TODO(x, x): m"] [(⟨"abcdefgh", some "alice", 0⟩, 1)] 0)
            0).map
          (fun g =>
            (processFile "f" ["TODO(x, x): m"] [(⟨"abcdefgh", some "alice", 0⟩, 1)] 0).map
              (leavesContaining g)) = some [1] := by decide

/-! ### C8 amended: fan-out over distinct tags -/

theorem normTags_ne_nil (tags : List String) : normTags tags ≠ [] := by
  unfold normTags
  split
  · simp
  · rename_i h
    simpa [List.isEmpty_iff] using h

theorem normTags_nodup (tags : List String) (h : tags.Nodup) : (normTags tags).Nodup := by
  unfold normTags
  split
  · simp
  · exact h

theorem updAssoc_same_single {κ ν : Type} [DecidableEq κ] (k : κ) (F : ν → ν) (d m : ν) :
    updAssoc k F d [(k, m)] = [(k, F m)] := by
  simp [updAssoc]

theorem foldl_single_key {κ ν : Type} [DecidableEq κ] (k : κ)
    (G : String → ν → ν) (d : ν) :
    ∀ (tags : List String) (m : ν),
      tags.foldl (fun a tag => updAssoc k (G tag) d a) [(k, m)] =
        [(k, tags.foldl (fun acc tag => G tag acc) m)] := by
  intro tags
  induction tags with
  | nil => intro m; rfl
  | cons g gs ih =>
    intro m
    rw [List.foldl_cons, List.foldl_cons, updAssoc_same_single]
    exact ih (G g m)

theorem updAssoc_notMem {κ ν : Type} [DecidableEq κ] (k : κ) (F : ν → ν) (d : ν) :
    ∀ m : List (κ × ν), k ∉ m.map Prod.fst → updAssoc k F d m = m ++ [(k, F d)] := by
  intro m
  induction m with
  | nil => intro _; rfl
  | cons e rest ih =>
    intro h
    simp only [List.map_cons, List.mem_cons] at h
    push_neg at h
    unfold updAssoc
    rw [if_neg (fun hc => h.1 hc.symm), ih h.2]
    rfl

theorem foldl_updAssoc_fresh {κ ν : Type} [DecidableEq κ] (F : ν → ν) (d : ν) :
    ∀ (ks : List κ) (m : List (κ × ν)), ks.Nodup →
      (∀ k ∈ ks, k ∉ m.map Prod.fst) →
      ks.foldl (fun a k => updAssoc k F d a) m = m ++ ks.map (fun k => (k, F d)) := by
  intro ks
  induction ks with
  | nil => intro m _ _; simp
  | cons k ks ih =>
    intro m hnd hfresh
    rw [List.foldl_cons, updAssoc_notMem k F d m (hfresh k (List.mem_cons_self k ks))]
    rw [List.nodup_cons] at hnd
    rw [ih (m ++ [(k, F d)]) hnd.2 ?_]
    · simp
    · intro k2 hk2
      simp only [List.map_append, List.mem_append, List.map_cons, List.map_nil,
        List.mem_singleton]
      push_neg
      refine ⟨fun hc => hfresh k2 (List.mem_cons_of_mem k hk2) hc, ?_⟩
      intro hc
      exact hnd.1 (hc ▸ hk2)

/-- C8 amended: the aggregator places one annotation into exactly one leaf
list per *distinct* tag — all under the annotation's group key and author
bucket — and an untagged annotation exactly once under the sentinel tag.
(With duplicate tags, which the parser allows, the duplicates collapse into
that one leaf list; the annotation is not placed in one leaf list per tag
occurrence, which is what the counterexample shows.) -/
theorem c8_amended (t : Todo) (now : Int) (hlen : 7 ≤ t.commit_hash.data.length)
    (hnd : t.tags.Nodup) :
    group_todos [t] now =
      some [(decorate now (t.commit_date, String.mk (t.commit_hash.data.take 7)),
        (normTags t.tags).map (fun tag => (tag, [(t.author, [t])])))] := by
  have hsh : shortHash t.commit_hash = some (String.mk (t.commit_hash.data.take 7)) := by
    unfold shortHash
    rw [if_pos hlen]
  have hstep : group_todos [t] now =
      some (insertTodo
        (decorate now (t.commit_date, String.mk (t.commit_hash.data.take 7))) t []) := by
    unfold group_todos groupStep
    rw [List.foldlM_cons, hsh]
    rfl
  rw [hstep]
  congr 1
  unfold insertTodo
  cases hN : normTags t.tags with
  | nil => exact absurd hN (normTags_ne_nil t.tags)
  | cons g gs =>
    have hnd2 : (g :: gs).Nodup := hN ▸ normTags_nodup t.tags hnd
    rw [List.nodup_cons] at hnd2
    rw [List.foldl_cons]
    have h0 : updAssoc (decorate now (t.commit_date, String.mk (t.commit_hash.data.take 7)))
        (updAssoc g (updAssoc t.author (fun l => l ++ [t]) []) []) []
        ([] : Grouped) =
        [(decorate now (t.commit_date, String.mk (t.commit_hash.data.take 7)),
          updAssoc g (updAssoc t.author (fun l => l ++ [t]) []) [] [])] := rfl
    rw [h0, foldl_single_key]
    have hinner : (updAssoc g (updAssoc t.author (fun l => l ++ [t]) []) []
        ([] : TagMap)) = [(g, [(t.author, [t])])] := rfl
    rw [hinner, foldl_updAssoc_fresh (updAssoc t.author (fun l => l ++ [t]) []) [] gs
      [(g, [(t.author, [t])])] hnd2.2 ?_]
    · simp only [List.map_cons]
      rfl
    · intro k2 hk2
      simp only [List.map_cons, List.map_nil, List.mem_singleton]
      intro hc
      exact hnd2.1 (hc ▸ hk2)

/-- C8 amended witness: an annotation with the two distinct tags `x`, `y`. -/
theorem c8_amended_witness :
    7 ≤ ("abcdefgh" : String).data.length ∧ (["x", "y"] : List String).Nodup ∧
      group_todos
          [{ file_path := "f", line := 1, tags := ["x", "y"], statement := "s",
             author := "alice", commit_hash := "abcdefgh", commit_date := 5 }] 0 =
        some [(decorate 0 (5, String.mk (("abcdefgh" : String).data.take 7)),
          (normTags ["x", "y"]).map (fun tag => (tag, [("alice",
            [{ file_path := "f", line := 1, tags := ["x", "y"], statement := "s",
               author := "alice", commit_hash := "abcdefgh", commit_date := 5 }])])))] :=
  ⟨by decide, by decide,
   c8_amended
     { file_path := "f", line := 1, tags := ["x", "y"], statement := "s",
       author := "alice", commit_hash := "abcdefgh", commit_date := 5 } 0
     (by decide) (by decide)⟩

/-! ### C7 amended: the pipeline is idempotent up to the display labels -/

theorem updAssoc_mapFst {κ κ' ν : Type} [DecidableEq κ] [DecidableEq κ'] (f : κ → κ')
    (hf : ∀ a b : κ, f a = f b → a = b) (k : κ) (F : ν → ν) (d : ν) :
    ∀ l : List (κ × ν),
      updAssoc (f k) F d (mapFst f l) = mapFst f (updAssoc k F d l) := by
  intro l
  induction l with
  | nil => rfl
  | cons e rest ih =>
    simp only [mapFst, List.map_cons]
    unfold updAssoc
    by_cases h : e.1 = k
    · rw [if_pos (by rw [h]), if_pos h]
      rfl
    · rw [if_neg (fun hc => h (hf _ _ hc)), if_neg h]
      simp only [List.map_cons, List.cons.injEq, true_and]
      exact ih

theorem insertTodo_mapFst {κ κ' : Type} [DecidableEq κ] [DecidableEq κ'] (f : κ → κ')
    (hf : ∀ a b : κ, f a = f b → a = b) (k : κ) (t : Todo) :
    ∀ acc : List (κ × TagMap),
      insertTodo (f k) t (mapFst f acc) = mapFst f (insertTodo k t acc) := by
  unfold insertTodo
  generalize normTags t.tags = tags
  induction tags with
  | nil => intro acc; rfl
  | cons g gs ih =>
    intro acc
    rw [List.foldl_cons, List.foldl_cons, updAssoc_mapFst f hf]
    exact ih _

theorem decorate_inj (now : Int) : ∀ a b : Int × String,
    decorate now a = decorate now b → a = b := by
  rintro ⟨d1, s1⟩ ⟨d2, s2⟩ h
  simp only [decorate, Key.mk.injEq] at h
  obtain ⟨hd, hs⟩ := h
  subst hd
  refine Prod.ext rfl ?_
  have hdat := congrArg String.data hs
  simp only [String.data_append, List.append_assoc] at hdat
  have h2 := List.append_cancel_left hdat
  exact String.ext (List.append_cancel_right h2)

theorem group_core_fold (now : Int) : ∀ (todos : List Todo)
    (acc : List ((Int × String) × TagMap)),
    todos.foldlM (groupStep now) (mapFst (decorate now) acc) =
      (todos.foldlM coreStep acc).map (mapFst (decorate now)) := by
  intro todos
  induction todos with
  | nil =>
    intro acc
    simp [List.foldlM_nil]
  | cons t ts ih =>
    intro acc
    rw [List.foldlM_cons, List.foldlM_cons]
    unfold groupStep coreStep
    cases hsh : shortHash t.commit_hash with
    | none => simp
    | some sh =>
      simp only [Option.some_bind]
      rw [insertTodo_mapFst (decorate now) (decorate_inj now) (t.commit_date, sh) t acc]
      exact ih _

theorem group_todos_core (todos : List Todo) (now : Int) :
    group_todos todos now = (groupCore todos).map (mapFst (decorate now)) := by
  have h := group_core_fold now todos []
  rw [group_todos, groupCore]
  rw [show (mapFst (decorate now) [] : Grouped) = [] from rfl] at h
  exact h

theorem coreFold_none_of_badHash : ∀ (todos : List Todo),
    (∃ t ∈ todos, shortHash t.commit_hash = none) →
    ∀ acc, todos.foldlM coreStep acc = none := by
  intro todos
  induction todos with
  | nil =>
    rintro ⟨t, ht, _⟩
    exact absurd ht (List.not_mem_nil t)
  | cons t ts ih =>
    rintro ⟨u, hu, hsh⟩ acc
    rw [List.foldlM_cons]
    rcases List.mem_cons.mp hu with h | h
    · subst h
      unfold coreStep
      rw [hsh]
      rfl
    · cases hsh2 : shortHash t.commit_hash with
      | none =>
        unfold coreStep
        rw [hsh2]
        rfl
      | some sh =>
        unfold coreStep
        rw [hsh2]
        simp only [Option.some_bind]
        exact ih ⟨u, h, hsh⟩ _

theorem forall₂_mem_right {R : Todo → Todo → Prop} : ∀ {l1 l2 : List Todo},
    List.Forall₂ R l1 l2 → ∀ t ∈ l1, ∃ u ∈ l2, R t u := by
  intro l1 l2 h
  induction h with
  | nil =>
    intro t ht
    exact absurd ht (List.not_mem_nil t)
  | cons hr hrs ih =>
    intro t ht
    rcases List.mem_cons.mp ht with h1 | h1
    · exact ⟨_, List.mem_cons_self _ _, h1 ▸ hr⟩
    · obtain ⟨u, hu, hru⟩ := ih t h1
      exact ⟨u, List.mem_cons_of_mem _ hu, hru⟩

theorem forall₂_eq_of_goodHash : ∀ {l1 l2 : List Todo},
    List.Forall₂ RelTodo l1 l2 →
    (∀ t ∈ l1, shortHash t.commit_hash ≠ none) → l1 = l2 := by
  intro l1 l2 h
  induction h with
  | nil => intro _; rfl
  | @cons a b l1' l2' hr hrs ih =>
    intro hgood
    rcases hr with he | ⟨ha, _⟩
    · rw [he, ih (fun t ht => hgood t (List.mem_cons_of_mem a ht))]
    · exfalso
      apply hgood a (List.mem_cons_self a l1')
      rw [ha]
      rfl

theorem groupCore_rel : ∀ (t1s t2s : List Todo),
    List.Forall₂ RelTodo t1s t2s → groupCore t1s = groupCore t2s := by
  intro t1s t2s h
  by_cases hbad : ∃ t ∈ t1s, shortHash t.commit_hash = none
  · have hbad2 : ∃ t ∈ t2s, shortHash t.commit_hash = none := by
      obtain ⟨t, ht, hsh⟩ := hbad
      obtain ⟨u, hu, hru⟩ := forall₂_mem_right h t ht
      refine ⟨u, hu, ?_⟩
      rcases hru with he | ⟨_, hb⟩
      · rw [← he]
        exact hsh
      · rw [hb]
        rfl
    rw [groupCore, groupCore, coreFold_none_of_badHash t1s hbad [],
      coreFold_none_of_badHash t2s hbad2 []]
  · push_neg at hbad
    rw [forall₂_eq_of_goodHash h hbad]

theorem processLine_rel (m : List (Nat × CommitRec)) (path : String) (n1 n2 : Int)
    (idx : Nat) (line : String) :
    (processLine m path n1 idx line = none ∧ processLine m path n2 idx line = none) ∨
      ∃ t1 t2, processLine m path n1 idx line = some t1 ∧
        processLine m path n2 idx line = some t2 ∧ RelTodo t1 t2 := by
  unfold processLine
  by_cases hg : containsTodoSub line = true
  · rw [if_pos hg, if_pos hg]
    by_cases he : (parse_todo line).2 = ""
    · rw [if_pos he, if_pos he]
      left
      exact ⟨rfl, rfl⟩
    · rw [if_neg he, if_neg he]
      cases hlk : List.lookup (idx + 1) m with
      | some c =>
        simp only [hlk]
        right
        exact ⟨_, _, rfl, rfl, Or.inl rfl⟩
      | none =>
        simp only [hlk]
        right
        exact ⟨_, _, rfl, rfl, Or.inr ⟨rfl, rfl⟩⟩
  · rw [if_neg hg, if_neg hg]
    left
    exact ⟨rfl, rfl⟩

theorem forall₂_filterMap {α β : Type} (R : β → β → Prop) (f g : α → Option β)
    (h : ∀ x, (f x = none ∧ g x = none) ∨
      ∃ y z, f x = some y ∧ g x = some z ∧ R y z) :
    ∀ l : List α, List.Forall₂ R (l.filterMap f) (l.filterMap g) := by
  intro l
  induction l with
  | nil => exact List.Forall₂.nil
  | cons a as ih =>
    rcases h a with ⟨hf, hg2⟩ | ⟨y, z, hf, hg2, hr⟩
    · rw [List.filterMap_cons, List.filterMap_cons, hf, hg2]
      exact ih
    · rw [List.filterMap_cons, List.filterMap_cons, hf, hg2]
      exact List.Forall₂.cons hr ih

theorem processFile_rel (path : String) (lines : List String)
    (hunks : List (CommitRec × Nat)) (n1 n2 : Int) :
    List.Forall₂ RelTodo (processFile path lines hunks n1)
      (processFile path lines hunks n2) := by
  unfold processFile
  exact forall₂_filterMap RelTodo _ _
    (fun p => processLine_rel (buildLineToCommit hunks) path n1 n2 p.1 p.2) lines.enum

theorem getTodosFiles_rel (files : List FileData) (n1 n2 : Int) :
    List.Forall₂ RelTodo (getTodosFiles files n1) (getTodosFiles files n2) := by
  induction files with
  | nil => exact List.Forall₂.nil
  | cons f rest ih =>
    exact List.rel_append (processFile_rel f.path f.lines f.hunks n1 n2) ih

/-- C7 amended: two runs over an unchanged repository state yield aggregated
trees that agree on everything except the group keys' display labels (whose
relative-time phrase is rendered at the scan instant): stripping the display
labels leaves identical numeric sort keys, identical grouping structure,
identical ordering and identical leaf contents — and a run panics iff the
other one does. -/
theorem c7_amended (files : List FileData) (n1 n2 : Int) :
    (runPipeline files n1).map stripDisplay = (runPipeline files n2).map stripDisplay := by
  have hcore : groupCore (getTodosFiles files n1) = groupCore (getTodosFiles files n2) :=
    groupCore_rel _ _ (getTodosFiles_rel files n1 n2)
  rw [runPipeline, runPipeline, group_todos_core, group_todos_core, hcore]
  cases groupCore (getTodosFiles files n2) with
  | none => rfl
  | some c =>
    simp only [Option.map_some']
    congr 1
    unfold stripDisplay mapFst
    rw [List.map_map, List.map_map]
    rfl

end TodoScan
